import Mathlib

/-!
Verification of the github-trend-analyzer core against its specification.

The definitions below are shallow embeddings of the JavaScript source:
  * `calculateHIndex`  — src/unnamed/part_017, `calculateHIndex`
  * the REST fetch loop — src/src/services/githubService.js,
    `fetchAndCalculateHIndexREST` (identical copy in src/unnamed/part_008)
  * the GraphQL fetch loop — src/src/services/githubService.js,
    `fetchAndCalculateHIndexGraphQL`
  * `generateTimeWindows`, `isLeapYear` — src/src/services/trendTrackerService.js
  * the id-keyed merge — src/js/App.js `processSearchTerm` /
    src/unnamed/part_005 `processSearchTermForHIndex`
  * `compareSearchTerms` — src/src/services/trendTrackerService.js
-/

set_option maxHeartbeats 1000000
set_option maxRecDepth 100000

namespace TrendAnalyzer

/-- One step of a stable insertion sort in descending order.  This models
the effect of JavaScript `array.sort((a, b) => b - a)` on a list of
scores: the result is the same multiset arranged in descending order. -/
def insertDesc (a : Nat) : List Nat → List Nat
  | [] => [a]
  | b :: l => if b ≤ a then a :: b :: l else b :: insertDesc a l

/-- Sort a list of scores in descending order (see `insertDesc`). -/
def sortDesc (l : List Nat) : List Nat := l.foldr insertDesc []

/-- The scan of `calculateHIndex` (src/unnamed/part_017): starting from
`hIndex = 0`, walk the descending-sorted scores; at 0-based position `i`
set `hIndex := i + 1` while the score is `≥ i + 1`, and break at the
first failure.  The accumulator `i` is the number of positions passed so
far, which equals the current `hIndex` value. -/
def hScan : List Nat → Nat → Nat
  | [], i => i
  | a :: rest, i => if i + 1 ≤ a then hScan rest (i + 1) else i

/-- Embedding of `calculateHIndex(repos, property)` from
src/unnamed/part_017: copy the array, sort it descending by the score
property, then scan for the largest rank `i+1` with
`sorted[i][property] >= i+1`, stopping at the first failure.  Sorting
the items by score and then reading off the scores yields the same
score list as sorting the mapped scores, so the computation is embedded
on `repos.map score`. -/
def calculateHIndex (repos : List α) (score : α → Nat) : Nat :=
  hScan (sortDesc (repos.map score)) 0

/-- Number of items whose score is at least `k` (the quantity the spec's
H-Index definition talks about). -/
def countAtLeast (repos : List α) (score : α → Nat) (k : Nat) : Nat :=
  repos.countP (fun a => decide (k ≤ score a))

theorem insertDesc_perm (a : Nat) (l : List Nat) : List.Perm (insertDesc a l) (a :: l) := by
  induction l with
  | nil => simp [insertDesc]
  | cons b l ih =>
    simp only [insertDesc]
    split
    · exact List.Perm.refl _
    · exact (ih.cons b).trans (List.Perm.swap a b l)

theorem sortDesc_perm (l : List Nat) : List.Perm (sortDesc l) l := by
  induction l with
  | nil => simp [sortDesc]
  | cons a l ih =>
    simp only [sortDesc, List.foldr_cons]
    exact (insertDesc_perm a _).trans (ih.cons a)

theorem insertDesc_sorted (a : Nat) (l : List Nat)
    (h : l.Pairwise (fun x y => y ≤ x)) :
    (insertDesc a l).Pairwise (fun x y => y ≤ x) := by
  induction l with
  | nil => simp [insertDesc]
  | cons b l ih =>
    simp only [insertDesc]
    split
    · constructor
      · intro c hc
        rcases List.mem_cons.mp hc with rfl | hc
        · assumption
        · exact le_trans (List.rel_of_pairwise_cons h hc) (by assumption)
      · exact h
    · rcases List.pairwise_cons.mp h with ⟨hb, hl⟩
      constructor
      · intro c hc
        have := (insertDesc_perm a l).mem_iff.mp hc
        rcases List.mem_cons.mp this with rfl | hc'
        · omega
        · exact hb c hc'
      · exact ih hl

theorem sortDesc_sorted (l : List Nat) :
    (sortDesc l).Pairwise (fun x y => y ≤ x) := by
  induction l with
  | nil => simp [sortDesc]
  | cons a l ih =>
    simpa only [sortDesc, List.foldr_cons] using insertDesc_sorted a _ ih

theorem hScan_ge (l : List Nat) (i : Nat) : i ≤ hScan l i := by
  induction l generalizing i with
  | nil => simp [hScan]
  | cons a rest ih =>
    simp only [hScan]
    split
    · exact le_trans (Nat.le_succ i) (ih (i + 1))
    · exact Nat.le_refl i

theorem hScan_exists_ge (l : List Nat) (i : Nat) (h : i < hScan l i) :
    ∃ e ∈ l, hScan l i ≤ e := by
  induction l generalizing i with
  | nil => simp [hScan] at h
  | cons a rest ih =>
    simp only [hScan] at h ⊢
    split at h
    · rename_i hpass
      split
      · by_cases h' : i + 1 < hScan rest (i + 1)
        · obtain ⟨e, he, hle⟩ := ih (i + 1) h'
          exact ⟨e, List.mem_cons_of_mem a he, hle⟩
        · have : hScan rest (i + 1) = i + 1 := le_antisymm (by omega) (hScan_ge rest (i + 1))
          exact ⟨a, List.mem_cons_self a rest, by omega⟩
      · omega
    · omega

theorem hScan_count_ge (l : List Nat) (hs : l.Pairwise (fun x y => y ≤ x)) (i : Nat) :
    hScan l i - i ≤ l.countP (fun x => decide (hScan l i ≤ x)) := by
  induction l generalizing i with
  | nil => simp [hScan]
  | cons a rest ih =>
    rcases List.pairwise_cons.mp hs with ⟨ha, hrest⟩
    simp only [hScan]
    split
    · rename_i hpass
      have hna : hScan rest (i + 1) ≤ a := by
        by_cases h' : i + 1 < hScan rest (i + 1)
        · obtain ⟨e, he, hle⟩ := hScan_exists_ge rest (i + 1) h'
          exact le_trans hle (ha e he)
        · have := hScan_ge rest (i + 1)
          omega
      have hcount := ih hrest (i + 1)
      rw [List.countP_cons]
      have hge := hScan_ge rest (i + 1)
      simp only [decide_eq_true_eq] at *
      rw [if_pos hna]
      omega
    · simp

theorem hScan_greatest (l : List Nat) (hs : l.Pairwise (fun x y => y ≤ x))
    (k i : Nat) (h : k ≤ l.countP (fun x => decide (k ≤ x)) + i) :
    k ≤ hScan l i := by
  induction l generalizing i with
  | nil => simpa [hScan] using h
  | cons a rest ih =>
    rcases List.pairwise_cons.mp hs with ⟨ha, hrest⟩
    by_cases hki : k ≤ i
    · exact le_trans hki (hScan_ge _ i)
    · by_cases hka : k ≤ a
      · have hpass : i + 1 ≤ a := by omega
        simp only [hScan, if_pos hpass]
        apply ih hrest
        rw [List.countP_cons] at h
        simp only [decide_eq_true_eq] at h
        rw [if_pos hka] at h
        omega
      · have hzero : rest.countP (fun x => decide (k ≤ x)) = 0 := by
          rw [List.countP_eq_zero]
          intro e he
          simp only [decide_eq_true_eq]
          have := ha e he
          omega
        rw [List.countP_cons] at h
        simp only [decide_eq_true_eq] at h
        rw [if_neg hka] at h
        omega

theorem countAtLeast_eq_sorted (repos : List α) (score : α → Nat) (k : Nat) :
    (sortDesc (repos.map score)).countP (fun x => decide (k ≤ x)) =
      countAtLeast repos score k := by
  rw [countAtLeast, (sortDesc_perm (repos.map score)).countP_eq, List.countP_map]
  rfl

/-- The value computed by `calculateHIndex` is achieved: at least that
many items have a score at least that large. -/
theorem calculateHIndex_count_ge (repos : List α) (score : α → Nat) :
    calculateHIndex repos score ≤ countAtLeast repos score (calculateHIndex repos score) := by
  have := hScan_count_ge (sortDesc (repos.map score)) (sortDesc_sorted _) 0
  rw [countAtLeast_eq_sorted repos score] at this
  simpa [calculateHIndex] using this

/-- The value computed by `calculateHIndex` is the greatest achieved
value: any `k` with at least `k` items scoring `≥ k` is at most it. -/
theorem calculateHIndex_greatest (repos : List α) (score : α → Nat) (k : Nat)
    (h : k ≤ countAtLeast repos score k) :
    k ≤ calculateHIndex repos score := by
  apply hScan_greatest (sortDesc (repos.map score)) (sortDesc_sorted _) k 0
  rw [countAtLeast_eq_sorted repos score]
  omega

theorem calculateHIndex_nil (score : α → Nat) :
    calculateHIndex ([] : List α) score = 0 := rfl

/-- Appending more items can only increase the H-Index. -/
theorem calculateHIndex_mono_append (l l' : List α) (score : α → Nat) :
    calculateHIndex l score ≤ calculateHIndex (l ++ l') score := by
  apply calculateHIndex_greatest
  calc calculateHIndex l score
      ≤ countAtLeast l score (calculateHIndex l score) := calculateHIndex_count_ge l score
    _ ≤ countAtLeast (l ++ l') score (calculateHIndex l score) := by
        simp [countAtLeast, List.countP_append]

/-- C1: for every finite list of items and every score field,
`calculateHIndex` returns the largest integer `k` such that at least `k`
items have a score `≥ k` in that field, and returns `0` on the empty
list. -/
theorem c1_hIndex_correct : ∀ (α : Type) (repos : List α) (score : α → Nat),
    (calculateHIndex repos score ≤ countAtLeast repos score (calculateHIndex repos score)
      ∧ (∀ k, k ≤ countAtLeast repos score k → k ≤ calculateHIndex repos score))
    ∧ calculateHIndex ([] : List α) score = 0 := by
  intro α repos score
  exact ⟨⟨calculateHIndex_count_ge repos score,
    fun k hk => calculateHIndex_greatest repos score k hk⟩, rfl⟩

/-- Witness for C1 at the spec's own example `[10, 8, 5, 4, 3]`, whose
H-Index is 4. -/
theorem c1_hIndex_correct_witness :
    4 ≤ countAtLeast [10, 8, 5, 4, 3] (fun x => x) 4 ∧
      4 ≤ calculateHIndex [10, 8, 5, 4, 3] (fun x => x) :=
  ⟨by decide,
    (c1_hIndex_correct Nat [10, 8, 5, 4, 3] (fun x => x)).1.2 4 (by decide)⟩

/-! REST fetch strategy, `fetchAndCalculateHIndexREST` of
src/src/services/githubService.js (lines 190-255; the identical code is
`githubService.fetchAndCalculateHIndex` in src/unnamed/part_008).  The
upstream search endpoint is modelled as a function from the 1-based
page number to the page it returns (`items` plus `total_count`); the
loop state carries the JavaScript mutable variables, plus a `requests`
counter recording how many page requests were issued. -/

/-- One page of REST search results: `data.items` and `data.total_count`. -/
structure RestPage (α : Type) where
  items : List α
  total_count : Nat

/-- The mutable state of the REST fetch loop. -/
structure RestState (α : Type) where
  repos : List α
  page : Nat
  currentHIndex : Nat
  hasMoreRepos : Bool
  reachedHIndex : Bool
  totalItems : Nat
  requests : Nat

/-- The boundary test `repos[currentHIndex - 1][property] === currentHIndex`
of the JavaScript source: an out-of-range access yields `undefined`,
which is never strictly equal to a number, hence `false`; in particular
index `-1` (the case `h = 0`) is `false`. -/
def boundaryScoreEq (repos : List α) (score : α → Nat) (h : Nat) : Bool :=
  match h with
  | 0 => false
  | Nat.succ k =>
    match repos.get? k with
    | some r => decide (score r = Nat.succ k)
    | none => false

/-- Initial loop state: `repos = []`, `page = 1`, `currentHIndex = 0`,
`hasMoreRepos = true`, `reachedHIndex = false`, `totalItems = 0`. -/
def restInit (α : Type) : RestState α :=
  { repos := []
    page := 1
    currentHIndex := 0
    hasMoreRepos := true
    reachedHIndex := false
    totalItems := 0
    requests := 0 }

/-- The loop guard `hasMoreRepos && page <= 10 && !reachedHIndex`. -/
def restGuard (s : RestState α) : Bool :=
  s.hasMoreRepos && decide (s.page ≤ 10) && !s.reachedHIndex

/-- One iteration of the REST fetch loop: request page `page`, record
`total_count`; if the page has items, append them, recompute the
H-Index, and either record a strict increase (then test the
early-stop condition (b)) or test the stabilization condition (a);
a short page or an empty page clears `hasMoreRepos`. -/
def restStep (up : Nat → RestPage α) (score : α → Nat) (s : RestState α) : RestState α :=
  let data := up s.page
  if data.items.length = 0 then
    { s with
      totalItems := data.total_count
      hasMoreRepos := false
      page := s.page + 1
      requests := s.requests + 1 }
  else
    let repos := s.repos ++ data.items
    let tempH := calculateHIndex repos score
    let currentH := if s.currentHIndex < tempH then tempH else s.currentHIndex
    let reached :=
      if s.currentHIndex < tempH then
        if 2 * tempH ≤ repos.length ∧ boundaryScoreEq repos score tempH = true ∧
            (repos.length = data.total_count ∨ 3 * tempH ≤ repos.length) then true
        else s.reachedHIndex
      else
        if 200 ≤ repos.length ∧ tempH = s.currentHIndex then true
        else s.reachedHIndex
    let hasMore := if data.items.length < 100 then false else s.hasMoreRepos
    { repos := repos
      page := s.page + 1
      currentHIndex := currentH
      hasMoreRepos := hasMore
      reachedHIndex := reached
      totalItems := data.total_count
      requests := s.requests + 1 }

/-- The loop state after `n` iterations of the guarded REST loop. -/
def restTrace (up : Nat → RestPage α) (score : α → Nat) : Nat → RestState α
  | 0 => restInit α
  | n + 1 =>
    let s := restTrace up score n
    if restGuard s = true then restStep up score s else s

/-- The record returned by `fetchAndCalculateHIndexREST`. -/
structure RestResult (α : Type) where
  hIndex : Nat
  repos : List α
  totalItems : Nat
  totalFetched : Nat

/-- Run the REST fetch loop to completion (10 iterations always suffice,
see `restTrace_stable`) and build the returned record
`{hIndex: currentHIndex, repos, totalItems, totalFetched: min(totalItems, repos.length)}`. -/
def restFetch (up : Nat → RestPage α) (score : α → Nat) : RestResult α :=
  let s := restTrace up score 10
  { hIndex := s.currentHIndex
    repos := s.repos
    totalItems := s.totalItems
    totalFetched := min s.totalItems s.repos.length }

theorem restTrace_frozen (up : Nat → RestPage α) (score : α → Nat) (n : Nat)
    (h : restGuard (restTrace up score n) = false) :
    restTrace up score (n + 1) = restTrace up score n := by
  simp [restTrace, h]

theorem restTrace_guard_mono (up : Nat → RestPage α) (score : α → Nat) (n : Nat)
    (h : restGuard (restTrace up score (n + 1)) = true) :
    restGuard (restTrace up score n) = true := by
  by_contra h'
  rw [Bool.not_eq_true] at h'
  rw [restTrace_frozen up score n h'] at h
  rw [h] at h'
  exact Bool.true_eq_false.mp h'

theorem restTrace_page_requests (up : Nat → RestPage α) (score : α → Nat) (n : Nat) :
    (restTrace up score n).requests + 1 = (restTrace up score n).page ∧
      (restTrace up score n).page ≤ 11 := by
  induction n with
  | zero => simp [restTrace, restInit]
  | succ n ih =>
    by_cases h : restGuard (restTrace up score n) = true
    · have hpage : (restTrace up score n).page ≤ 10 := by
        have := h
        simp only [restGuard, Bool.and_eq_true, decide_eq_true_eq] at this
        exact this.1.2
      simp only [restTrace, h, if_true]
      constructor
      · simp only [restStep]
        split <;> simp <;> omega
      · simp only [restStep]
        split <;> simp <;> omega
    · rw [Bool.not_eq_true] at h
      rw [restTrace_frozen up score n h]
      exact ih

theorem restTrace_page_of_guard (up : Nat → RestPage α) (score : α → Nat) (n : Nat)
    (h : restGuard (restTrace up score n) = true) :
    (restTrace up score n).page = n + 1 := by
  induction n with
  | zero => simp [restTrace, restInit]
  | succ n ih =>
    have hprev := restTrace_guard_mono up score n h
    have hpage := ih hprev
    simp only [restTrace, hprev, if_true]
    simp only [restStep]
    split <;> simp <;> omega

theorem restGuard_trace_ten (up : Nat → RestPage α) (score : α → Nat) :
    restGuard (restTrace up score 10) = false := by
  by_contra h
  rw [Bool.not_eq_false] at h
  have hpage := restTrace_page_of_guard up score 10 h
  simp only [restGuard, Bool.and_eq_true, decide_eq_true_eq] at h
  omega

theorem restTrace_stable (up : Nat → RestPage α) (score : α → Nat) (n : Nat) :
    restTrace up score (10 + n) = restTrace up score 10 := by
  induction n with
  | zero => rfl
  | succ n ih =>
    have : restGuard (restTrace up score (10 + n)) = false := by
      rw [ih]; exact restGuard_trace_ten up score
    have h := restTrace_frozen up score (10 + n) this
    rw [show 10 + (n + 1) = (10 + n) + 1 by omega, h, ih]

/-- C7: across every possible sequence of upstream responses, the REST
strategy never issues more than 10 page requests, and the fetch loop
always terminates: after at most 10 iterations the state is fixed. -/
theorem c7_rest_page_cap : ∀ (α : Type) (up : Nat → RestPage α) (score : α → Nat) (n : Nat),
    (restTrace up score n).requests ≤ 10 ∧
      restTrace up score (10 + n) = restTrace up score 10 := by
  intro α up score n
  have h := restTrace_page_requests up score n
  exact ⟨by omega, restTrace_stable up score n⟩

/-- The tracked `currentHIndex` always equals the H-Index of the items
accumulated so far: the strict-increase update rule never falls behind
because `calculateHIndex` is monotone under appending pages. -/
theorem restTrace_currentHIndex (up : Nat → RestPage α) (score : α → Nat) (n : Nat) :
    (restTrace up score n).currentHIndex =
      calculateHIndex (restTrace up score n).repos score := by
  induction n with
  | zero => simp [restTrace, restInit, calculateHIndex, sortDesc, hScan]
  | succ n ih =>
    by_cases h : restGuard (restTrace up score n) = true
    · simp only [restTrace, h, if_true]
      set s := restTrace up score n with hs
      simp only [restStep]
      split
      · exact ih
      · simp only
        split
        · rfl
        · rename_i hnotlt
          have hmono := calculateHIndex_mono_append s.repos (up s.page).items score
          omega
    · rw [Bool.not_eq_true] at h
      rw [restTrace_frozen up score n h]
      exact ih

/-- While the REST loop still believes there are more repositories, all
consumed pages were full, so the accumulated length is exactly 100 per
fetched page (pages hold at most 100 items; a shorter page clears
`hasMoreRepos`). -/
theorem restTrace_len (up : Nat → RestPage α) (score : α → Nat)
    (h100 : ∀ p, (up p).items.length ≤ 100) (n : Nat)
    (h : (restTrace up score n).hasMoreRepos = true) :
    (restTrace up score n).repos.length = 100 * ((restTrace up score n).page - 1) := by
  induction n with
  | zero => simp [restTrace, restInit]
  | succ n ih =>
    by_cases hg : restGuard (restTrace up score n) = true
    · have hpage := restTrace_page_requests up score n
      have hMore : (restTrace up score n).hasMoreRepos = true := by
        simp only [restGuard, Bool.and_eq_true] at hg
        exact hg.1.1
      have hlen := ih hMore
      have hp1 : 1 ≤ (restTrace up score n).page := by omega
      have h100' := h100 (restTrace up score n).page
      simp only [restTrace, hg, if_true] at h ⊢
      by_cases hemp : ((up (restTrace up score n).page).items).length = 0
      · simp [restStep, hemp] at h
      · by_cases hfull : ((up (restTrace up score n).page).items).length < 100
        · simp [restStep, hemp, hfull] at h
        · simp only [restStep, if_neg hemp, if_neg hfull, List.length_append]
          omega
    · rw [Bool.not_eq_true] at hg
      rw [restTrace_frozen up score n hg] at h ⊢
      exact ih h

/-- Condition (a) of the spec's early-termination policy, read on the
state just before fetching page `s.page`: after accumulating that page,
the H-Index did not increase (it still equals the tracked
`currentHIndex`) and at least 200 items have been accumulated. -/
def specStopA (up : Nat → RestPage α) (score : α → Nat) (s : RestState α) : Prop :=
  calculateHIndex (s.repos ++ (up s.page).items) score = s.currentHIndex
    ∧ 200 ≤ (s.repos ++ (up s.page).items).length

/-- Condition (b) of the spec's early-termination policy, read on the
state just before fetching page `s.page`, with `currentHIndex` the
H-Index of the accumulated set: the set has at least `2×currentHIndex`
items, the item at rank `currentHIndex` has a score exactly equal to
`currentHIndex`, and either all upstream matches have been fetched or
the set has at least `3×currentHIndex` items. -/
def specStopB (up : Nat → RestPage α) (score : α → Nat) (s : RestState α) : Prop :=
  let repos := s.repos ++ (up s.page).items
  let h := calculateHIndex repos score
  2 * h ≤ repos.length ∧ boundaryScoreEq repos score h = true
    ∧ (repos.length = (up s.page).total_count ∨ 3 * h ≤ repos.length)

/-- C2: on every reachable looping state, the REST strategy fetches a
further page exactly when neither early-stop condition holds and
neither the page cap nor upstream exhaustion intervenes: the guard of
the successor state is true iff the page just consumed was full, the
next page number is within the cap, and neither (a) nor (b) holds. -/
theorem c2_rest_early_stop : ∀ (α : Type) (up : Nat → RestPage α) (score : α → Nat),
    (∀ p, (up p).items.length ≤ 100) → ∀ n : Nat,
    restGuard (restTrace up score n) = true →
    (restGuard (restStep up score (restTrace up score n)) = true ↔
      ((up (restTrace up score n).page).items.length = 100
        ∧ (restTrace up score n).page + 1 ≤ 10
        ∧ ¬(specStopA up score (restTrace up score n)
            ∨ specStopB up score (restTrace up score n)))) := by
  intro α up score h100 n hguard
  have hinv := restTrace_currentHIndex up score n
  have hpr := restTrace_page_requests up score n
  set s := restTrace up score n with hs
  have hMore : s.hasMoreRepos = true := by
    simp only [restGuard, Bool.and_eq_true] at hguard
    exact hguard.1.1
  have hreach : s.reachedHIndex = false := by
    simp only [restGuard, Bool.and_eq_true, Bool.not_eq_true'] at hguard
    exact hguard.2
  have hlen := restTrace_len up score h100 n hMore
  rw [← hs] at hlen
  have hp1 : 1 ≤ s.page := by omega
  have h100' := h100 s.page
  by_cases hemp : (up s.page).items.length = 0
  · simp only [restStep, hemp, if_pos rfl]
    simp only [restGuard]
    simp [hemp]
  · simp only [restStep, if_neg hemp]
    simp only [restGuard]
    by_cases hfull : (up s.page).items.length < 100
    · have : ¬ (up s.page).items.length = 100 := by omega
      simp [hfull, this]
    · have hil : (up s.page).items.length = 100 := by omega
      simp only [if_neg hfull, hMore]
      have hmono := calculateHIndex_mono_append s.repos (up s.page).items score
      have hkey : (if s.currentHIndex < calculateHIndex (s.repos ++ (up s.page).items) score then
          if 2 * calculateHIndex (s.repos ++ (up s.page).items) score ≤ (s.repos ++ (up s.page).items).length ∧
              boundaryScoreEq (s.repos ++ (up s.page).items) score
                (calculateHIndex (s.repos ++ (up s.page).items) score) = true ∧
              ((s.repos ++ (up s.page).items).length = (up s.page).total_count ∨
                3 * calculateHIndex (s.repos ++ (up s.page).items) score ≤ (s.repos ++ (up s.page).items).length) then true
          else s.reachedHIndex
        else
          if 200 ≤ (s.repos ++ (up s.page).items).length ∧
              calculateHIndex (s.repos ++ (up s.page).items) score = s.currentHIndex then true
          else s.reachedHIndex) = true ↔
          (specStopA up score s ∨ specStopB up score s) := by
        by_cases hinc : s.currentHIndex < calculateHIndex (s.repos ++ (up s.page).items) score
        · rw [if_pos hinc]
          have hAfalse : ¬ specStopA up score s := by
            intro hA
            rw [specStopA] at hA
            omega
          simp only [specStopB]
          constructor
          · intro h
            split at h
            · right; assumption
            · rw [hreach] at h; exact absurd h (by simp)
          · intro h
            rcases h with hA | hB
            · exact absurd hA hAfalse
            · rw [if_pos hB]
        · rw [if_neg hinc]
          have heq : calculateHIndex (s.repos ++ (up s.page).items) score = s.currentHIndex := by
            omega
          by_cases h200 : 200 ≤ (s.repos ++ (up s.page).items).length
          · rw [if_pos ⟨h200, heq⟩]
            have hA : specStopA up score s := ⟨heq, h200⟩
            simp [hA]
          · have hpage1 : s.page = 1 := by
              rw [List.length_append] at h200
              omega
            have hrepos : s.repos = [] := by
              have : s.repos.length = 0 := by omega
              exact List.length_eq_zero.mp this
            have hH0 : calculateHIndex (s.repos ++ (up s.page).items) score = 0 := by
              rw [heq, hinv, hrepos, calculateHIndex_nil]
            have hAfalse : ¬ specStopA up score s := by
              intro hA
              exact h200 hA.2
            have hBfalse : ¬ specStopB up score s := by
              intro hB
              rw [specStopB] at hB
              rw [hH0] at hB
              simp [boundaryScoreEq] at hB
            rw [if_neg (by intro hc; exact h200 hc.1), hreach]
            simp [hAfalse, hBfalse]
      constructor
      · intro h
        simp only [Bool.and_eq_true, decide_eq_true_eq, Bool.not_eq_true'] at h
        refine ⟨hil, by omega, ?_⟩
        rw [← hkey, h.2]
        simp
      · intro ⟨hl1, hl2, hl3⟩
        rw [← hkey] at hl3
        simp only [Bool.and_eq_true, decide_eq_true_eq, Bool.not_eq_true']
        rw [Bool.not_eq_true] at hl3
        refine ⟨⟨?_, hl2⟩, hl3⟩
        trivial

/-- Witness for C2: on the upstream that always answers a full page of
100 items of score 1000, the equivalence holds at the initial state. -/
theorem c2_rest_early_stop_witness :
    restGuard (restStep (fun _ => RestPage.mk (List.replicate 100 1000) 100000) (fun x => x)
        (restTrace (fun _ => RestPage.mk (List.replicate 100 1000) 100000) (fun x => x) 0)) = true ↔
      (((fun _ => RestPage.mk (List.replicate 100 1000) 100000)
            ((restTrace (fun _ => RestPage.mk (List.replicate 100 1000) 100000) (fun x => x) 0)).page).items.length = 100
        ∧ ((restTrace (fun _ => RestPage.mk (List.replicate 100 1000) 100000) (fun x => x) 0)).page + 1 ≤ 10
        ∧ ¬(specStopA (fun _ => RestPage.mk (List.replicate 100 1000) 100000) (fun x => x)
              (restTrace (fun _ => RestPage.mk (List.replicate 100 1000) 100000) (fun x => x) 0)
            ∨ specStopB (fun _ => RestPage.mk (List.replicate 100 1000) 100000) (fun x => x)
              (restTrace (fun _ => RestPage.mk (List.replicate 100 1000) 100000) (fun x => x) 0))) :=
  c2_rest_early_stop Nat (fun _ => RestPage.mk (List.replicate 100 1000) 100000) (fun x => x)
    (fun p => by simp) 0 (by decide)

/-- C9: the `hIndex` returned by the REST strategy (the incrementally
tracked `currentHIndex`) equals `calculateHIndex` recomputed on the full
accumulated list at loop exit, and `calculateHIndex` is monotone
non-decreasing under appending items. -/
theorem c9_rest_hIndex_refinement : ∀ (α : Type) (up : Nat → RestPage α) (score : α → Nat),
    (restFetch up score).hIndex = calculateHIndex (restFetch up score).repos score
      ∧ ∀ (l l' : List α), calculateHIndex l score ≤ calculateHIndex (l ++ l') score := by
  intro α up score
  exact ⟨restTrace_currentHIndex up score 10,
    fun l l' => calculateHIndex_mono_append l l' score⟩

/-! GraphQL fetch strategy, `fetchAndCalculateHIndexGraphQL` of
src/src/services/githubService.js (lines 52-180).  The cursor transport
is modelled as a function from the number of pages already fetched to
the next page (`nodes`, `pageInfo.hasNextPage`, `repositoryCount`); the
opaque `endCursor` does not influence the loop logic and is dropped. -/

/-- One page of GraphQL search results. -/
structure GqlPage (α : Type) where
  nodes : List α
  hasNextPage : Bool
  repositoryCount : Nat

/-- The mutable state of the GraphQL fetch loop. -/
structure GqlState (α : Type) where
  allRepos : List α
  hasNextPage : Bool
  totalCount : Nat
  iter : Nat
  stopped : Bool

/-- Initial loop state: `allRepos = []`, `hasNextPage = true`. -/
def gqlInit (α : Type) : GqlState α :=
  { allRepos := []
    hasNextPage := true
    totalCount := 0
    iter := 0
    stopped := false }

/-- The loop continues while `hasNextPage` holds and no `break` fired. -/
def gqlGuard (s : GqlState α) : Bool := s.hasNextPage && !s.stopped

/-- One iteration of the GraphQL fetch loop: append the page's nodes,
update pagination info, recompute the H-Index, and `break` when
`allRepos.length >= currentHIndex * 3 && allRepos.length >= 100` or
when `allRepos.length >= 500`. -/
def gqlStep (up : Nat → GqlPage α) (score : α → Nat) (s : GqlState α) : GqlState α :=
  let data := up s.iter
  let repos := s.allRepos ++ data.nodes
  let h := calculateHIndex repos score
  { allRepos := repos
    hasNextPage := data.hasNextPage
    totalCount := data.repositoryCount
    iter := s.iter + 1
    stopped := (decide (3 * h ≤ repos.length) && decide (100 ≤ repos.length))
      || decide (500 ≤ repos.length) }

/-- The loop state after `n` iterations of the guarded GraphQL loop. -/
def gqlTrace (up : Nat → GqlPage α) (score : α → Nat) : Nat → GqlState α
  | 0 => gqlInit α
  | n + 1 =>
    let s := gqlTrace up score n
    if gqlGuard s = true then gqlStep up score s else s

/-- An upstream cursor transport on which the accumulated collection
exceeds 500 items: four full pages, then a 60-node page (all with
`hasNextPage = true`, which the transport may report even for a short
page), then full pages again.  After five pages 460 items of score 1000
are accumulated, no stop condition fires (460 < 3×460 and 460 < 500),
and the sixth page pushes the collection to 560. -/
def c3Up : Nat → GqlPage Nat :=
  fun i => { nodes := List.replicate (if i = 4 then 60 else 100) 1000
             hasNextPage := true
             repositoryCount := 100000 }

/-- Counterexample to C3 as stated: under pages of at most 100 nodes the
GraphQL loop can accumulate 560 items, exceeding 500. -/
theorem c3_gql_cap_counterexample :
    (∀ i, (c3Up i).nodes.length ≤ 100) ∧
      500 < ((gqlTrace c3Up (fun x => x) 6).allRepos).length := by
  constructor
  · intro i
    simp only [c3Up, List.length_replicate]
    split <;> omega
  · decide

theorem gqlTrace_frozen (up : Nat → GqlPage α) (score : α → Nat) (n : Nat)
    (h : gqlGuard (gqlTrace up score n) = false) :
    gqlTrace up score (n + 1) = gqlTrace up score n := by
  simp [gqlTrace, h]

/-- Invariant for the general 599 bound: while no break has fired the
collection is below 500, and it never exceeds 599. -/
theorem gqlTrace_len_inv (up : Nat → GqlPage α) (score : α → Nat)
    (h100 : ∀ i, (up i).nodes.length ≤ 100) (n : Nat) :
    ((gqlTrace up score n).stopped = false →
        (gqlTrace up score n).allRepos.length < 500) ∧
      (gqlTrace up score n).allRepos.length ≤ 599 := by
  induction n with
  | zero => simp [gqlTrace, gqlInit]
  | succ n ih =>
    by_cases hg : gqlGuard (gqlTrace up score n) = true
    · have hstop : (gqlTrace up score n).stopped = false := by
        simp only [gqlGuard, Bool.and_eq_true, Bool.not_eq_true'] at hg
        exact hg.2
      have hlt := ih.1 hstop
      have h100' := h100 (gqlTrace up score n).iter
      simp only [gqlTrace, hg, if_true]
      simp only [gqlStep, List.length_append, Bool.or_eq_false_iff,
        decide_eq_false_iff_not]
      constructor
      · intro hns
        omega
      · omega
    · rw [Bool.not_eq_true] at hg
      rw [gqlTrace_frozen up score n hg]
      exact ih

/-- Invariant for the 500 bound under full pages: the collection never
exceeds 500, and while the loop can still run its length is a multiple
of 100 and at most 400. -/
theorem gqlTrace_len_full_inv (up : Nat → GqlPage α) (score : α → Nat)
    (h100 : ∀ i, (up i).nodes.length ≤ 100)
    (hfull : ∀ i, (up i).hasNextPage = true → (up i).nodes.length = 100) (n : Nat) :
    (gqlTrace up score n).allRepos.length ≤ 500 ∧
      ((gqlTrace up score n).hasNextPage = true →
        (gqlTrace up score n).stopped = false →
        (100 ∣ (gqlTrace up score n).allRepos.length ∧
          (gqlTrace up score n).allRepos.length ≤ 400)) := by
  induction n with
  | zero => simp [gqlTrace, gqlInit]
  | succ n ih =>
    by_cases hg : gqlGuard (gqlTrace up score n) = true
    · have hnext : (gqlTrace up score n).hasNextPage = true := by
        simp only [gqlGuard, Bool.and_eq_true] at hg
        exact hg.1
      have hstop : (gqlTrace up score n).stopped = false := by
        simp only [gqlGuard, Bool.and_eq_true, Bool.not_eq_true'] at hg
        exact hg.2
      obtain ⟨hdvd, hle⟩ := ih.2 hnext hstop
      have h100' := h100 (gqlTrace up score n).iter
      simp only [gqlTrace, hg, if_true]
      simp only [gqlStep, List.length_append, Bool.or_eq_false_iff,
        decide_eq_false_iff_not]
      constructor
      · omega
      · intro hnext' hstop'
        have hfull' := hfull (gqlTrace up score n).iter hnext'
        constructor
        · rw [hfull']
          omega
        · rw [hfull'] at hstop' ⊢
          omega
    · rw [Bool.not_eq_true] at hg
      rw [gqlTrace_frozen up score n hg]
      exact ih

/-- C3 amended: with pages of at most 100 nodes the GraphQL strategy
accumulates at most 599 items at every point of the fetch loop; if in
addition every page that reports a further page carries exactly 100
nodes, the accumulated collection never exceeds 500 items. -/
theorem c3_gql_cap_amended : ∀ (α : Type) (up : Nat → GqlPage α) (score : α → Nat),
    (∀ i, (up i).nodes.length ≤ 100) → ∀ n : Nat,
    (gqlTrace up score n).allRepos.length ≤ 599 ∧
      ((∀ i, (up i).hasNextPage = true → (up i).nodes.length = 100) →
        (gqlTrace up score n).allRepos.length ≤ 500) := by
  intro α up score h100 n
  exact ⟨(gqlTrace_len_inv up score h100 n).2,
    fun hfull => (gqlTrace_len_full_inv up score h100 hfull n).1⟩

/-- The upstream transport that always answers a full page of 100 nodes
of score 1000. -/
def gqlFullUp : Nat → GqlPage Nat :=
  fun _ => { nodes := List.replicate 100 1000
             hasNextPage := true
             repositoryCount := 100000 }

/-- Witness for the amended C3 on the always-full upstream after three
pages. -/
theorem c3_gql_cap_amended_witness :
    (gqlTrace gqlFullUp (fun x => x) 3).allRepos.length ≤ 599 ∧
      ((∀ i, (gqlFullUp i).hasNextPage = true → (gqlFullUp i).nodes.length = 100) →
        (gqlTrace gqlFullUp (fun x => x) 3).allRepos.length ≤ 500) :=
  c3_gql_cap_amended Nat gqlFullUp (fun x => x) (fun i => by simp [gqlFullUp]) 3

/-! Time Window Generator, `generateTimeWindows` and `isLeapYear` of
src/src/services/trendTrackerService.js (lines 148-221).  The source
builds `{start: "YYYY-MM-DD", end: "YYYY-MM-DD"}` string pairs; the
embedding keeps the six numeric components from which those strings are
rendered (zero-padded rendering is an injective formatting step).  The
current date enters only through `getFullYear()` and `getMonth() + 1`. -/

/-- Kind of calendar bucket, the `granularity` parameter. -/
inductive Granularity : Type
  | year : Granularity
  | quarter : Granularity
  | month : Granularity

instance : DecidableEq Granularity := fun a b => by
  cases a <;> cases b <;> first
    | exact isTrue rfl
    | exact isFalse (fun h => by cases h)

/-- One generated time window, as the numeric components of its
`start` and `end` date strings. -/
structure TimeWindow where
  startYear : Nat
  startMonth : Nat
  startDay : Nat
  endYear : Nat
  endMonth : Nat
  endDay : Nat
deriving DecidableEq

/-- Embedding of `isLeapYear(year)`:
`(year % 4 === 0 && year % 100 !== 0) || year % 400 === 0`. -/
def isLeapYear (year : Nat) : Bool :=
  (year % 4 == 0 && year % 100 != 0) || year % 400 == 0

/-- The end-day computation of `generateTimeWindows`:
`month === 2 ? (isLeapYear ? 29 : 28) : [4,6,9,11].includes(month) ? 30 : 31`. -/
def jsEndDay (year month : Nat) : Nat :=
  if month = 2 then (if isLeapYear year then 29 else 28)
  else if month = 4 ∨ month = 6 ∨ month = 9 ∨ month = 11 then 30 else 31

/-- The current date as the generator observes it: `getFullYear()` and
`getMonth() + 1`. -/
structure Today where
  currentYear : Nat
  currentMonth : Nat

/-- `Math.ceil(currentMonth / 3)`, the current quarter. -/
def currentQuarter (t : Today) : Nat := (t.currentMonth + 2) / 3

/-- The years visited by `for (year = startYear; year <= endYear; year++)`. -/
def yearRange (startYear endYear : Nat) : List Nat :=
  List.range' startYear (endYear + 1 - startYear)

/-- Embedding of `generateTimeWindows(startYear, endYear, granularity)`.
For `year`, one window `[Y-01-01, Y-12-31]` per year, skipping the
current year; for `quarter`, four windows per year spanning months
`[3q-2, 3q]`, skipping the current and later quarters of the current
year; for `month`, one window per month, skipping the current and later
months of the current year. -/
def generateTimeWindows (t : Today) (startYear endYear : Nat) :
    Granularity → List TimeWindow
  | Granularity.year =>
    (yearRange startYear endYear).filterMap fun y =>
      if y = t.currentYear then none
      else some { startYear := y, startMonth := 1, startDay := 1,
                  endYear := y, endMonth := 12, endDay := 31 }
  | Granularity.quarter =>
    (yearRange startYear endYear).flatMap fun y =>
      (List.range' 1 4).filterMap fun q =>
        if y = t.currentYear ∧ currentQuarter t ≤ q then none
        else some { startYear := y, startMonth := (q - 1) * 3 + 1, startDay := 1,
                    endYear := y, endMonth := q * 3, endDay := jsEndDay y (q * 3) }
  | Granularity.month =>
    (yearRange startYear endYear).flatMap fun y =>
      (List.range' 1 12).filterMap fun m =>
        if y = t.currentYear ∧ t.currentMonth ≤ m then none
        else some { startYear := y, startMonth := m, startDay := 1,
                    endYear := y, endMonth := m, endDay := jsEndDay y m }

/-- A calendar date, for speaking about spans of generated windows. -/
structure CalDate where
  year : Nat
  month : Nat
  day : Nat

/-- Lexicographic date order. -/
def dateLE (a b : CalDate) : Prop :=
  a.year < b.year ∨ (a.year = b.year ∧
    (a.month < b.month ∨ (a.month = b.month ∧ a.day ≤ b.day)))

instance (a b : CalDate) : Decidable (dateLE a b) := by
  unfold dateLE
  infer_instance

/-- A window's span contains a date when the date lies between the
window's start and end dates inclusively. -/
def windowContains (w : TimeWindow) (d : CalDate) : Prop :=
  dateLE { year := w.startYear, month := w.startMonth, day := w.startDay } d ∧
    dateLE d { year := w.endYear, month := w.endMonth, day := w.endDay }

instance (w : TimeWindow) (d : CalDate) : Decidable (windowContains w d) := by
  unfold windowContains
  infer_instance

/-- C4: for every start year, end year, granularity, and current date,
no emitted window's span contains the current date: the window holding
"now" is omitted entirely. -/
theorem c4_now_excluded : ∀ (t : Today) (startYear endYear currentDay : Nat)
    (g : Granularity),
    ((generateTimeWindows t startYear endYear g).all fun w =>
      !decide (windowContains w
        { year := t.currentYear, month := t.currentMonth, day := currentDay })) = true := by
  intro t startYear endYear currentDay g
  rw [List.all_eq_true]
  intro w hw
  simp only [Bool.not_eq_true', decide_eq_false_iff_not]
  intro hcontains
  obtain ⟨hstart, hend⟩ := hcontains
  cases g with
  | year =>
    simp only [generateTimeWindows, List.mem_filterMap] at hw
    obtain ⟨y, hy, hyw⟩ := hw
    by_cases hcy : y = t.currentYear
    · simp [hcy] at hyw
    · rw [if_neg hcy] at hyw
      cases Option.some.inj hyw
      simp only [dateLE] at hstart hend
      omega
  | quarter =>
    simp only [generateTimeWindows, List.mem_flatMap, List.mem_filterMap] at hw
    obtain ⟨y, hy, q, hq, hqw⟩ := hw
    have hqr : 1 ≤ q ∧ q < 5 := by
      have := List.mem_range'_1.mp hq
      omega
    by_cases hcy : y = t.currentYear ∧ currentQuarter t ≤ q
    · simp [hcy] at hqw
    · rw [if_neg hcy] at hqw
      cases Option.some.inj hqw
      simp only [dateLE] at hstart hend
      simp only [currentQuarter] at hcy
      rcases hstart with h1 | ⟨h1, h2⟩ <;> rcases hend with h3 | ⟨h3, h4⟩ <;> omega
  | month =>
    simp only [generateTimeWindows, List.mem_flatMap, List.mem_filterMap] at hw
    obtain ⟨y, hy, m, hm, hmw⟩ := hw
    by_cases hcy : y = t.currentYear ∧ t.currentMonth ≤ m
    · simp [hcy] at hmw
    · rw [if_neg hcy] at hmw
      cases Option.some.inj hmw
      simp only [dateLE] at hstart hend
      rcases hstart with h1 | ⟨h1, h2⟩ <;> rcases hend with h3 | ⟨h3, h4⟩ <;> omega

/-- The actual last day of a calendar month, written from the claim:
30 for April, June, September and November; 31 for the other
non-February months; for February, 29 iff the year is divisible by 4
and (not divisible by 100, or divisible by 400), else 28. -/
def realLastDay (year month : Nat) : Nat :=
  if month = 2 then
    (if 4 ∣ year ∧ (¬(100 ∣ year) ∨ 400 ∣ year) then 29 else 28)
  else if month = 4 ∨ month = 6 ∨ month = 9 ∨ month = 11 then 30 else 31

theorem isLeapYear_iff (year : Nat) :
    isLeapYear year = true ↔ (4 ∣ year ∧ (¬(100 ∣ year) ∨ 400 ∣ year)) := by
  simp only [isLeapYear, Bool.or_eq_true, Bool.and_eq_true, beq_iff_eq,
    bne_iff_ne, Ne, Nat.dvd_iff_mod_eq_zero]
  omega

theorem jsEndDay_eq_realLastDay (year month : Nat) :
    jsEndDay year month = realLastDay year month := by
  simp only [jsEndDay, realLastDay]
  by_cases h2 : month = 2
  · rw [if_pos h2, if_pos h2]
    by_cases hl : isLeapYear year = true
    · rw [if_pos hl, if_pos (isLeapYear_iff year |>.mp hl)]
    · rw [if_neg hl, if_neg (fun hc => hl ((isLeapYear_iff year).mpr hc))]
  · rw [if_neg h2, if_neg h2]

/-- C5: every quarter window and every month window ends on the actual
last day of its final calendar month, with the leap-year rule for
February. -/
theorem c5_end_day_correct : ∀ (t : Today) (startYear endYear : Nat),
    ((generateTimeWindows t startYear endYear Granularity.quarter).all fun w =>
        decide (w.endDay = realLastDay w.endYear w.endMonth)) = true ∧
      ((generateTimeWindows t startYear endYear Granularity.month).all fun w =>
        decide (w.endDay = realLastDay w.endYear w.endMonth)) = true := by
  intro t startYear endYear
  constructor <;>
    (rw [List.all_eq_true]
     intro w hw
     simp only [generateTimeWindows, List.mem_flatMap, List.mem_filterMap] at hw
     obtain ⟨y, hy, m, hm, hmw⟩ := hw
     rw [decide_eq_true_eq]
     split at hmw
     · cases hmw
     · cases Option.some.inj hmw
       simp only
       exact jsEndDay_eq_realLastDay _ _)

/-- C10: the incomplete-period exclusion only affects the current
calendar year: every window of a year strictly after the current year
(within the requested range) is emitted, for all three granularities. -/
theorem c10_future_years_emitted : ∀ (t : Today) (startYear endYear y : Nat),
    t.currentYear < y → startYear ≤ y → y ≤ endYear →
    ({ startYear := y, startMonth := 1, startDay := 1,
       endYear := y, endMonth := 12, endDay := 31 : TimeWindow } ∈
        generateTimeWindows t startYear endYear Granularity.year)
    ∧ (∀ q, 1 ≤ q → q ≤ 4 →
        { startYear := y, startMonth := (q - 1) * 3 + 1, startDay := 1,
          endYear := y, endMonth := q * 3, endDay := jsEndDay y (q * 3) : TimeWindow } ∈
          generateTimeWindows t startYear endYear Granularity.quarter)
    ∧ (∀ m, 1 ≤ m → m ≤ 12 →
        { startYear := y, startMonth := m, startDay := 1,
          endYear := y, endMonth := m, endDay := jsEndDay y m : TimeWindow } ∈
          generateTimeWindows t startYear endYear Granularity.month) := by
  intro t startYear endYear y hcy hsy hey
  have hyr : y ∈ yearRange startYear endYear := by
    rw [yearRange, List.mem_range'_1]
    omega
  have hne : y ≠ t.currentYear := by omega
  refine ⟨?_, ?_, ?_⟩
  · simp only [generateTimeWindows, List.mem_filterMap]
    exact ⟨y, hyr, by rw [if_neg hne]⟩
  · intro q hq1 hq4
    simp only [generateTimeWindows, List.mem_flatMap, List.mem_filterMap]
    refine ⟨y, hyr, q, ?_, ?_⟩
    · rw [List.mem_range'_1]
      omega
    · rw [if_neg (fun hc => hne hc.1)]
  · intro m hm1 hm12
    simp only [generateTimeWindows, List.mem_flatMap, List.mem_filterMap]
    refine ⟨y, hyr, m, ?_, ?_⟩
    · rw [List.mem_range'_1]
      omega
    · rw [if_neg (fun hc => hne hc.1)]

/-- Witness for C10: with the current date in 2024, the full 2025
yearly window is emitted when the range is 2020-2026. -/
theorem c10_future_years_emitted_witness :
    2024 < 2025 ∧
      ({ startYear := 2025, startMonth := 1, startDay := 1,
         endYear := 2025, endMonth := 12, endDay := 31 : TimeWindow } ∈
        generateTimeWindows { currentYear := 2024, currentMonth := 5 } 2020 2026
          Granularity.year) :=
  ⟨by omega,
    (c10_future_years_emitted { currentYear := 2024, currentMonth := 5 } 2020 2026 2025
      (by decide) (by decide) (by decide)).1⟩

/-! Comparative report merge.  `processSearchTerm` (src/js/App.js lines
120-143) and `processSearchTermForHIndex` (src/unnamed/part_005 lines
89-112) combine the two fetch passes with
`[...new Map([...starResult.repos, ...forkResult.repos].map(repo => [repo.id, repo])).values()]`.
A JavaScript `Map` keeps insertion order: setting an existing key
replaces the value in place, setting a fresh key appends; the spread of
`.values()` therefore yields, scanning the concatenated list left to
right, one entry per distinct id, at the position of the id's first
occurrence, holding the item of the id's last occurrence. -/

/-- A repository item as the merge sees it: an identifier and the two
score fields. -/
structure Repo where
  id : Nat
  stargazers_count : Nat
  forks_count : Nat
deriving DecidableEq

/-- One `Map.set` step: replace in place when the id is present,
append otherwise. -/
def upsertById (acc : List Repo) (r : Repo) : List Repo :=
  if acc.any (fun x => decide (x.id = r.id)) then
    acc.map (fun x => if x.id = r.id then r else x)
  else acc ++ [r]

/-- Embedding of `[...new Map(l.map(repo => [repo.id, repo])).values()]`. -/
def mergeById (l : List Repo) : List Repo := l.foldl upsertById []

/-- The ids of a list of items. -/
def idsOf (l : List Repo) : List Nat := l.map Repo.id

theorem idsOf_upsertById (acc : List Repo) (r : Repo) :
    idsOf (upsertById acc r) =
      if r.id ∈ idsOf acc then idsOf acc else idsOf acc ++ [r.id] := by
  have hany : acc.any (fun x => decide (x.id = r.id)) = true ↔ r.id ∈ idsOf acc := by
    rw [List.any_eq_true]
    simp only [decide_eq_true_eq, idsOf, List.mem_map]
  by_cases hmem : r.id ∈ idsOf acc
  · rw [if_pos hmem, upsertById, if_pos (hany.mpr hmem), idsOf, List.map_map]
    apply List.map_congr_left
    intro x hx
    by_cases hid : x.id = r.id
    · simp [hid]
    · simp [hid]
  · rw [if_neg hmem, upsertById, if_neg (fun hc => hmem (hany.mp hc)), idsOf,
      List.map_append]
    rfl

theorem length_upsertById_mem (acc : List Repo) (r : Repo)
    (h : r.id ∈ idsOf acc) :
    (upsertById acc r).length = acc.length := by
  have : idsOf (upsertById acc r) = idsOf acc := by
    rw [idsOf_upsertById, if_pos h]
  have h1 := congrArg List.length this
  simpa [idsOf] using h1

theorem length_upsertById_not_mem (acc : List Repo) (r : Repo)
    (h : ¬ r.id ∈ idsOf acc) :
    (upsertById acc r).length = acc.length + 1 := by
  have : idsOf (upsertById acc r) = idsOf acc ++ [r.id] := by
    rw [idsOf_upsertById, if_neg h]
  have h1 := congrArg List.length this
  simp only [idsOf, List.length_map, List.length_append, List.length_cons,
    List.length_nil] at h1
  omega

theorem nodup_append_singleton (l : List Nat) (a : Nat) (h : l.Nodup) (ha : ¬ a ∈ l) :
    (l ++ [a]).Nodup := by
  rw [List.nodup_append]
  refine ⟨h, List.nodup_singleton a, ?_⟩
  intro x hx hxa
  rw [List.mem_singleton] at hxa
  exact ha (hxa ▸ hx)

theorem length_filter_not_add (B : List Repo) (p : Repo → Bool) :
    (B.filter (fun b => !(p b))).length + (B.filter p).length = B.length := by
  induction B with
  | nil => simp
  | cons b B ih =>
    cases hpb : p b <;> simp [List.filter_cons, hpb] <;> omega

/-- The generic accounting step for the fold: with pairwise-distinct ids
on both sides, each processed item either lands on an existing id
(length unchanged) or on a fresh one (length + 1). -/
theorem foldl_upsertById_length (B : List Repo) :
    ∀ acc : List Repo, (idsOf B).Nodup → (idsOf acc).Nodup →
    (B.foldl upsertById acc).length =
      acc.length + (B.filter (fun b => !(decide (b.id ∈ idsOf acc)))).length := by
  induction B with
  | nil => intro acc _ _; simp
  | cons b B ih =>
    intro acc hB hacc
    have hBtail : (idsOf B).Nodup := by
      simp only [idsOf, List.map_cons, List.nodup_cons] at hB
      exact hB.2
    have hbB : ¬ b.id ∈ idsOf B := by
      simp only [idsOf, List.map_cons, List.nodup_cons] at hB
      exact hB.1
    rw [List.foldl_cons, List.filter_cons]
    by_cases hmem : b.id ∈ idsOf acc
    · have hids : idsOf (upsertById acc b) = idsOf acc := by
        rw [idsOf_upsertById, if_pos hmem]
      have := ih (upsertById acc b) hBtail (hids ▸ hacc)
      rw [this, length_upsertById_mem acc b hmem, hids]
      simp [hmem]
    · have hids : idsOf (upsertById acc b) = idsOf acc ++ [b.id] := by
        rw [idsOf_upsertById, if_neg hmem]
      have hacc' : (idsOf (upsertById acc b)).Nodup := by
        rw [hids]
        exact nodup_append_singleton _ _ hacc hmem
      have := ih (upsertById acc b) hBtail hacc'
      rw [this, length_upsertById_not_mem acc b hmem, hids]
      have hfilter : B.filter (fun x => !(decide (x.id ∈ idsOf acc ++ [b.id]))) =
          B.filter (fun x => !(decide (x.id ∈ idsOf acc))) := by
        apply List.filter_congr
        intro x hx
        have hxb : x.id ≠ b.id := by
          intro hc
          exact hbB (hc ▸ (List.mem_map.mpr ⟨x, hx, rfl⟩))
        simp [List.mem_append, hxb]
      rw [hfilter]
      simp [hmem]
      omega

theorem foldl_upsertById_nodup (B : List Repo) :
    ∀ acc : List Repo, (idsOf acc).Nodup → (idsOf (B.foldl upsertById acc)).Nodup := by
  induction B with
  | nil => intro acc h; exact h
  | cons b B ih =>
    intro acc hacc
    rw [List.foldl_cons]
    apply ih
    rw [idsOf_upsertById]
    by_cases hmem : b.id ∈ idsOf acc
    · rwa [if_pos hmem]
    · rw [if_neg hmem]
      exact nodup_append_singleton _ _ hacc hmem

theorem mem_upsertById_self (acc : List Repo) (r : Repo) : r ∈ upsertById acc r := by
  rw [upsertById]
  by_cases hany : acc.any (fun x => decide (x.id = r.id)) = true
  · rw [if_pos hany]
    obtain ⟨x, hx, hid⟩ := List.any_eq_true.mp hany
    rw [decide_eq_true_eq] at hid
    exact List.mem_map.mpr ⟨x, hx, by rw [if_pos hid]⟩
  · rw [if_neg hany]
    exact List.mem_append_right acc (List.mem_singleton.mpr rfl)

theorem mem_upsertById_of_ne (acc : List Repo) (r b : Repo)
    (hb : b ∈ acc) (hne : r.id ≠ b.id) : b ∈ upsertById acc r := by
  rw [upsertById]
  by_cases hany : acc.any (fun x => decide (x.id = r.id)) = true
  · rw [if_pos hany]
    refine List.mem_map.mpr ⟨b, hb, ?_⟩
    rw [if_neg (fun hc => hne hc.symm)]
  · rw [if_neg hany]
    exact List.mem_append_left _ hb

theorem mem_foldl_upsertById_of_ne (B : List Repo) :
    ∀ acc : List Repo, ∀ b ∈ acc, (∀ x ∈ B, x.id ≠ b.id) →
    b ∈ B.foldl upsertById acc := by
  induction B with
  | nil => intro acc b hb _; exact hb
  | cons x B ih =>
    intro acc b hb hne
    rw [List.foldl_cons]
    apply ih
    · exact mem_upsertById_of_ne acc x b hb (hne x (List.mem_cons_self x B))
    · intro x' hx'
      exact hne x' (List.mem_cons_of_mem x hx')

/-- With pairwise-distinct ids among the later pass, every item of the
later pass survives the fold (its id is never written again). -/
theorem mem_foldl_upsertById (B : List Repo) :
    ∀ acc : List Repo, (idsOf B).Nodup → ∀ b ∈ B, b ∈ B.foldl upsertById acc := by
  induction B with
  | nil => intro acc _ b hb; cases hb
  | cons x B ih =>
    intro acc hB b hb
    have hxB : ¬ x.id ∈ idsOf B := by
      simp only [idsOf, List.map_cons, List.nodup_cons] at hB
      exact hB.1
    have hBtail : (idsOf B).Nodup := by
      simp only [idsOf, List.map_cons, List.nodup_cons] at hB
      exact hB.2
    rw [List.foldl_cons]
    rcases List.mem_cons.mp hb with rfl | hbB
    · apply mem_foldl_upsertById_of_ne
      · exact mem_upsertById_self acc b
      · intro z hz hzb
        exact hxB (hzb ▸ (List.mem_map.mpr ⟨z, hz, rfl⟩))
    · exact ih (upsertById acc x) hBtail b hbB

theorem foldl_upsertById_fresh (A : List Repo) :
    ∀ acc : List Repo, (idsOf A).Nodup → (∀ a ∈ A, ¬ a.id ∈ idsOf acc) →
    A.foldl upsertById acc = acc ++ A := by
  induction A with
  | nil => intro acc _ _; simp
  | cons a A ih =>
    intro acc hA hfresh
    have haA : ¬ a.id ∈ idsOf A := by
      simp only [idsOf, List.map_cons, List.nodup_cons] at hA
      exact hA.1
    have hAtail : (idsOf A).Nodup := by
      simp only [idsOf, List.map_cons, List.nodup_cons] at hA
      exact hA.2
    have hfa : ¬ a.id ∈ idsOf acc := hfresh a (List.mem_cons_self a A)
    have hstep : upsertById acc a = acc ++ [a] := by
      rw [upsertById, if_neg]
      intro hc
      obtain ⟨x, hx, hid⟩ := List.any_eq_true.mp hc
      rw [decide_eq_true_eq] at hid
      exact hfa (List.mem_map.mpr ⟨x, hx, hid⟩)
    rw [List.foldl_cons, hstep]
    have hfresh' : ∀ x ∈ A, ¬ x.id ∈ idsOf (acc ++ [a]) := by
      intro x hx
      rw [idsOf, List.map_append]
      intro hc
      rcases List.mem_append.mp hc with hc1 | hc2
      · exact hfresh x (List.mem_cons_of_mem a hx) hc1
      · simp only [List.map_cons, List.map_nil, List.mem_singleton] at hc2
        refine haA ?_
        rw [← hc2]
        exact List.mem_map.mpr ⟨x, hx, rfl⟩
    rw [ih (acc ++ [a]) hAtail hfresh', List.append_assoc]
    rfl

/-- C6: merging the star-pass results `A` with the fork-pass results `B`
(each with pairwise-distinct ids, sharing exactly `k` common ids)
produces `|A| + |B| - k` items with pairwise-distinct ids, and every
item of the later fork pass is the one kept for its id. -/
theorem c6_merge_dedup : ∀ (A B : List Repo),
    (idsOf A).Nodup → (idsOf B).Nodup →
    (mergeById (A ++ B)).length =
        A.length + B.length - (B.filter (fun b => decide (b.id ∈ idsOf A))).length
      ∧ (idsOf (mergeById (A ++ B))).Nodup
      ∧ ∀ b ∈ B, b ∈ mergeById (A ++ B) := by
  intro A B hA hB
  have hAfold : A.foldl upsertById [] = A := by
    have := foldl_upsertById_fresh A [] hA (fun a _ => by simp [idsOf])
    simpa using this
  have hsplit : mergeById (A ++ B) = B.foldl upsertById A := by
    rw [mergeById, List.foldl_append, hAfold]
  refine ⟨?_, ?_, ?_⟩
  · rw [hsplit, foldl_upsertById_length B A hB hA]
    have hcompl := length_filter_not_add B (fun b => decide (b.id ∈ idsOf A))
    have hle : (B.filter (fun b => decide (b.id ∈ idsOf A))).length ≤ B.length :=
      List.length_filter_le _ B
    omega
  · rw [hsplit]
    exact foldl_upsertById_nodup B A hA
  · rw [hsplit]
    exact mem_foldl_upsertById B A hB

/-- Witness for C6: two two-item passes sharing one id merge to three
items, the shared id keeping the fork-pass entry. -/
theorem c6_merge_dedup_witness :
    (mergeById ([Repo.mk 1 5 5, Repo.mk 2 3 3] ++ [Repo.mk 2 9 9, Repo.mk 3 1 1])).length =
        2 + 2 - 1
      ∧ Repo.mk 2 9 9 ∈
          mergeById ([Repo.mk 1 5 5, Repo.mk 2 3 3] ++ [Repo.mk 2 9 9, Repo.mk 3 1 1]) := by
  have h := c6_merge_dedup [Repo.mk 1 5 5, Repo.mk 2 3 3] [Repo.mk 2 9 9, Repo.mk 3 1 1]
    (by decide) (by decide)
  refine ⟨?_, ?_⟩
  · have := h.1
    simpa using this
  · exact h.2.2 (Repo.mk 2 9 9) (by decide)

/-! Trend Aggregator, `compareSearchTerms` of
src/src/services/trendTrackerService.js (lines 421-445).  For each term
it awaits `fetchTimeSeries` and stores the term's data in
`results[term]`; a thrown error is caught and stored as
`results[term] = { error: ... }` instead, and the loop continues.  The
per-term fetch is modelled as an oracle returning either data or an
error (`Except`), and the JavaScript result object as an association
list with object-assignment semantics (existing key updated in place,
fresh key appended). -/

/-- JavaScript object property assignment `res[t] = v` on an
association list. -/
def objSet [DecidableEq τ] (res : List (τ × β)) (t : τ) (v : β) : List (τ × β) :=
  if res.any (fun p => decide (p.1 = t)) then
    res.map (fun p => if p.1 = t then (t, v) else p)
  else res ++ [(t, v)]

/-- Embedding of `compareSearchTerms(searchTerms, ...)`: for each term in
order, store the outcome of its fetch (data on success, the error
otherwise) under the term's key. -/
def compareSearchTerms [DecidableEq τ] (searchTerms : List τ)
    (fetchTimeSeries : τ → Except ε δ) : List (τ × Except ε δ) :=
  searchTerms.foldl (fun res t => objSet res t (fetchTimeSeries t)) []

/-- Reading `res[t]`: the first entry with key `t`, if any. -/
def findEntry [DecidableEq τ] (res : List (τ × β)) (t : τ) : Option β :=
  (res.find? (fun p => decide (p.1 = t))).map Prod.snd

theorem findEntry_append_self [DecidableEq τ] (res : List (τ × β)) (t : τ) (v : β)
    (h : res.any (fun p => decide (p.1 = t)) = false) :
    findEntry (res ++ [(t, v)]) t = some v := by
  induction res with
  | nil => simp [findEntry, List.find?]
  | cons p res ih =>
    simp only [List.any_cons, Bool.or_eq_false_iff, decide_eq_false_iff_not] at h
    simp only [findEntry, List.cons_append, List.find?]
    rw [decide_eq_false h.1]
    have := ih (by simp only [List.any_eq_false] at h ⊢; exact fun p hp => h.2 p hp)
    simpa [findEntry] using this

theorem findEntry_map_self [DecidableEq τ] (res : List (τ × β)) (t : τ) (v : β)
    (h : res.any (fun p => decide (p.1 = t)) = true) :
    findEntry (res.map (fun p => if p.1 = t then (t, v) else p)) t = some v := by
  induction res with
  | nil => simp at h
  | cons p res ih =>
    simp only [List.any_cons, Bool.or_eq_true, decide_eq_true_eq] at h
    by_cases hp : p.1 = t
    · simp only [findEntry, List.map_cons, if_pos hp, List.find?]
      simp
    · simp only [findEntry, List.map_cons, if_neg hp, List.find?]
      rw [decide_eq_false hp]
      have hres : res.any (fun p => decide (p.1 = t)) = true := by
        rcases h with h | h
        · exact absurd h hp
        · exact h
      have := ih hres
      simpa [findEntry] using this

theorem findEntry_objSet_self [DecidableEq τ] (res : List (τ × β)) (t : τ) (v : β) :
    findEntry (objSet res t v) t = some v := by
  rw [objSet]
  by_cases hany : res.any (fun p => decide (p.1 = t)) = true
  · rw [if_pos hany]
    exact findEntry_map_self res t v hany
  · rw [if_neg hany]
    exact findEntry_append_self res t v (Bool.not_eq_true _ ▸ hany)

theorem findEntry_append_other [DecidableEq τ] (res : List (τ × β)) (t u : τ) (v : β)
    (hne : t ≠ u) : findEntry (res ++ [(u, v)]) t = findEntry res t := by
  induction res with
  | nil =>
    have hdec : (fun p : τ × β => decide (p.1 = t)) (u, v) = false := by
      simp only [decide_eq_false_iff_not]
      exact fun hc => hne hc.symm
    simp [findEntry, List.find?, hdec]
  | cons p res ih =>
    simp only [findEntry, List.cons_append, List.find?] at ih ⊢
    by_cases hp : p.1 = t
    · rw [decide_eq_true hp]
    · rw [decide_eq_false hp]
      exact ih

theorem findEntry_map_other [DecidableEq τ] (res : List (τ × β)) (t u : τ) (v : β)
    (hne : t ≠ u) :
    findEntry (res.map (fun p => if p.1 = u then (u, v) else p)) t = findEntry res t := by
  induction res with
  | nil => simp [findEntry]
  | cons p res ih =>
    by_cases hp : p.1 = u
    · simp only [findEntry, List.map_cons, if_pos hp, List.find?] at ih ⊢
      rw [decide_eq_false (fun hc : u = t => hne hc.symm),
        decide_eq_false (fun hc : p.1 = t => hne (hc ▸ hp ▸ rfl))]
      exact ih
    · simp only [findEntry, List.map_cons, if_neg hp, List.find?] at ih ⊢
      by_cases hpt : p.1 = t
      · rw [decide_eq_true hpt]
      · rw [decide_eq_false hpt]
        exact ih

theorem findEntry_objSet_other [DecidableEq τ] (res : List (τ × β)) (t u : τ) (v : β)
    (hne : t ≠ u) : findEntry (objSet res u v) t = findEntry res t := by
  rw [objSet]
  by_cases hany : res.any (fun p => decide (p.1 = u)) = true
  · rw [if_pos hany]
    exact findEntry_map_other res t u v hne
  · rw [if_neg hany]
    exact findEntry_append_other res t u v hne

theorem findEntry_foldl_not_mem [DecidableEq τ] (l : List τ)
    (fetch : τ → Except ε δ) :
    ∀ res : List (τ × Except ε δ), ∀ t, ¬ t ∈ l →
    findEntry (l.foldl (fun res t => objSet res t (fetch t)) res) t = findEntry res t := by
  induction l with
  | nil => intro res t _; rfl
  | cons x l ih =>
    intro res t ht
    rw [List.foldl_cons]
    have hne : t ≠ x := fun hc => ht (hc ▸ List.mem_cons_self x l)
    rw [ih (objSet res x (fetch x)) t (fun hc => ht (List.mem_cons_of_mem x hc))]
    exact findEntry_objSet_other res t x (fetch x) hne

theorem findEntry_foldl_mem [DecidableEq τ] (l : List τ)
    (fetch : τ → Except ε δ) :
    ∀ res : List (τ × Except ε δ), ∀ t ∈ l,
    findEntry (l.foldl (fun res t => objSet res t (fetch t)) res) t = some (fetch t) := by
  induction l with
  | nil => intro res t ht; cases ht
  | cons x l ih =>
    intro res t ht
    rw [List.foldl_cons]
    by_cases htl : t ∈ l
    · exact ih (objSet res x (fetch x)) t htl
    · have htx : t = x := by
        rcases List.mem_cons.mp ht with h | h
        · exact h
        · exact absurd h htl
      rw [findEntry_foldl_not_mem l fetch (objSet res x (fetch x)) t htl, htx]
      exact findEntry_objSet_self res x (fetch x)

/-- C8: for every list of search terms and every per-term fetch outcome
(data or error), `compareSearchTerms` returns an entry for every input
term, holding exactly that term's outcome: a failing term's slot records
its error while each succeeding term's slot holds its fetched series. -/
theorem c8_per_term_isolation : ∀ (τ ε δ : Type) (inst : DecidableEq τ)
    (searchTerms : List τ) (fetchTimeSeries : τ → Except ε δ) (t : τ),
    t ∈ searchTerms →
    findEntry (compareSearchTerms searchTerms fetchTimeSeries) t =
      some (fetchTimeSeries t) := by
  intro τ ε δ inst searchTerms fetch t ht
  rw [compareSearchTerms]
  exact findEntry_foldl_mem searchTerms fetch [] t ht

/-- Witness for C8: term 0 fails with error 7 while term 1 succeeds with
series 42; both slots are populated with their own outcome. -/
theorem c8_per_term_isolation_witness :
    findEntry (compareSearchTerms [0, 1]
        (fun t => if t = 0 then Except.error 7 else Except.ok 42)) 0 =
      some (Except.error 7) ∧
    findEntry (compareSearchTerms [0, 1]
        (fun t => if t = 0 then Except.error 7 else Except.ok 42)) 1 =
      some (Except.ok 42) :=
  ⟨c8_per_term_isolation Nat Nat Nat inferInstance [0, 1]
      (fun t => if t = 0 then Except.error 7 else Except.ok 42) 0 (by decide),
    c8_per_term_isolation Nat Nat Nat inferInstance [0, 1]
      (fun t => if t = 0 then Except.error 7 else Except.ok 42) 1 (by decide)⟩

end TrendAnalyzer
